import Mathlib

/-
Formal model of the GyroLib sensor-processing core
(`module/SensorMath.py` and `module/MotionAnalyzer.py`).

Numbers that the Python code handles as floats are modelled as exact
rationals (`ℚ`) where the code only uses field arithmetic and comparisons,
and as real numbers (`ℝ`) where the code uses `sqrt` or `log2`.
Python `None` becomes `Option`, Python dict/list state becomes structures,
and each stateful method becomes an explicit state-passing function.
-/

/-- Three-component vector of exact rationals, modelling the Python
3-element float lists used for accelerations and velocities. -/
structure V3 where
  x : ℚ
  y : ℚ
  z : ℚ
deriving DecidableEq, Repr

/-- Componentwise sum of two 3-vectors. -/
def vadd (u v : V3) : V3 := ⟨u.x + v.x, u.y + v.y, u.z + v.z⟩

/-- Scalar multiple of a 3-vector. -/
def vsmul (c : ℚ) (v : V3) : V3 := ⟨c * v.x, c * v.y, c * v.z⟩

/-- The decay constant hard-coded in `SensorMath.trapezoidal_integration`
(`decay_factor = 0.95`). -/
def decay_factor : ℚ := 95 / 100

/-- Model of `SensorMath.trapezoidal_integration` (SensorMath.py lines
141-169): with a previous acceleration the new velocity is
`decay_factor * v + dt * (a_prev + a_now) / 2`; with `prev_accel = None`
the code falls back to the Euler step `v + a_now * dt`. -/
def trapezoidal_integration (current_velocity current_accel : V3)
    (prev_accel : Option V3) (dt : ℚ) : V3 :=
  match prev_accel with
  | none => vadd current_velocity (vsmul dt current_accel)
  | some a_prev =>
    let a_average := vsmul (1 / 2) (vadd a_prev current_accel)
    vadd (vsmul decay_factor current_velocity) (vsmul dt a_average)

/-- The velocity-related state of `SensorDataProcessor`:
`last_time`, `velocity`, `prev_accel` (SensorMath.py lines 176-179). -/
structure ProcState where
  last_time : Option ℚ
  velocity : V3
  prev_accel : Option V3
deriving DecidableEq, Repr

/-- Model of the velocity-integration step of
`SensorDataProcessor.process_sensor_data` (SensorMath.py lines 262-268):
when `last_time` is not `None` the velocity is integrated with
`dt = current_time - last_time` (no sign check on `dt`) and `prev_accel`
is set to the current global acceleration; in every case `last_time`
is then set to `current_time`. -/
def process_velocity_step (s : ProcState) (global_accel : V3)
    (current_time : ℚ) : ProcState :=
  match s.last_time with
  | none => { s with last_time := some current_time }
  | some t0 =>
    { last_time := some current_time
      velocity := trapezoidal_integration s.velocity global_accel
        s.prev_accel (current_time - t0)
      prev_accel := some global_accel }

/-- Model of `SensorDataProcessor.reset_velocity` (SensorMath.py lines
306-308): the method body is the single assignment
`self.velocity = [0.0, 0.0, 0.0]`. -/
def reset_velocity (s : ProcState) : ProcState :=
  { s with velocity := ⟨0, 0, 0⟩ }

/-- C1 counterexample: with a previous timestamp present and
`dt = 1 - 1 = 0` (non-positive) and a stored previous acceleration, the
integrator still rescales the stored velocity by the decay factor, so the
velocity does not stay unchanged as the claim requires. -/
theorem process_velocity_step_nonpos_dt_changes_velocity :
    ¬ ((process_velocity_step ⟨some 1, ⟨1, 0, 0⟩, some ⟨0, 0, 0⟩⟩
        ⟨0, 0, 0⟩ 1).velocity = V3.mk 1 0 0) := by
  norm_num [process_velocity_step, trapezoidal_integration, vadd, vsmul,
    decay_factor, V3.mk.injEq]

/-- C1 amended: velocity is updated exactly when a previous timestamp
exists, with `dt = now - last_time` used whatever its sign; on the first
sample (no previous timestamp) the velocity is left unchanged; `last_time`
is always set to the current time. -/
theorem process_velocity_step_update_condition (s : ProcState) (a : V3)
    (t : ℚ) :
    (s.last_time = none → (process_velocity_step s a t).velocity = s.velocity) ∧
    (∀ t0, s.last_time = some t0 →
      (process_velocity_step s a t).velocity =
        trapezoidal_integration s.velocity a s.prev_accel (t - t0)) ∧
    (process_velocity_step s a t).last_time = some t := by
  refine ⟨?_, ?_, ?_⟩
  · intro h
    simp [process_velocity_step, h]
  · intro t0 h
    simp [process_velocity_step, h]
  · cases h : s.last_time <;> simp [process_velocity_step, h]

/-- Witness for the amended C1 theorem at a concrete first sample. -/
theorem process_velocity_step_update_condition_witness :
    (process_velocity_step ⟨none, ⟨1, 2, 3⟩, none⟩ ⟨4, 5, 6⟩ 7).velocity
      = V3.mk 1 2 3 :=
  (process_velocity_step_update_condition ⟨none, ⟨1, 2, 3⟩, none⟩
    ⟨4, 5, 6⟩ 7).1 rfl

/-- C3 counterexample: starting from a state with a stored previous
acceleration and timestamp, `reset_velocity` zeroes the velocity but does
not clear `prev_accel` or `last_time`, so the claimed post-state is not
reached. -/
theorem reset_velocity_keeps_history :
    ¬ ((reset_velocity ⟨some 5, ⟨1, 1, 1⟩, some ⟨2, 2, 2⟩⟩).velocity
          = V3.mk 0 0 0 ∧
       (reset_velocity ⟨some 5, ⟨1, 1, 1⟩, some ⟨2, 2, 2⟩⟩).prev_accel
          = none ∧
       (reset_velocity ⟨some 5, ⟨1, 1, 1⟩, some ⟨2, 2, 2⟩⟩).last_time
          = none) := by
  decide

/-- C3 amended: for every prior state, `reset_velocity` sets the velocity
to `[0, 0, 0]` and leaves both `prev_accel` and `last_time` unchanged. -/
theorem reset_velocity_spec (s : ProcState) :
    (reset_velocity s).velocity = V3.mk 0 0 0 ∧
    (reset_velocity s).prev_accel = s.prev_accel ∧
    (reset_velocity s).last_time = s.last_time := by
  refine ⟨rfl, rfl, rfl⟩

/-- C5: with a previous acceleration the integration step computes
`0.95 * v + dt * (a_prev + a_now) / 2` on every axis; with none it
computes the Euler step `v + dt * a_now`; and whenever integration runs
(a previous timestamp exists) the current acceleration is stored as
`prev_accel` for the next call. -/
theorem trapezoidal_integration_spec (v a ap : V3) (dt : ℚ) (s : ProcState)
    (t0 t : ℚ) (h : s.last_time = some t0) :
    ((trapezoidal_integration v a (some ap) dt).x
        = (95 / 100) * v.x + dt * (ap.x + a.x) / 2 ∧
     (trapezoidal_integration v a (some ap) dt).y
        = (95 / 100) * v.y + dt * (ap.y + a.y) / 2 ∧
     (trapezoidal_integration v a (some ap) dt).z
        = (95 / 100) * v.z + dt * (ap.z + a.z) / 2) ∧
    ((trapezoidal_integration v a none dt).x = v.x + dt * a.x ∧
     (trapezoidal_integration v a none dt).y = v.y + dt * a.y ∧
     (trapezoidal_integration v a none dt).z = v.z + dt * a.z) ∧
    (process_velocity_step s a t).prev_accel = some a := by
  refine ⟨⟨?_, ?_, ?_⟩, ⟨?_, ?_, ?_⟩, ?_⟩
  · simp [trapezoidal_integration, vadd, vsmul, decay_factor]; ring
  · simp [trapezoidal_integration, vadd, vsmul, decay_factor]; ring
  · simp [trapezoidal_integration, vadd, vsmul, decay_factor]; ring
  · simp [trapezoidal_integration, vadd, vsmul]
  · simp [trapezoidal_integration, vadd, vsmul]
  · simp [trapezoidal_integration, vadd, vsmul]
  · simp [process_velocity_step, h]

/-- Witness for the C5 theorem at concrete vectors and times. -/
theorem trapezoidal_integration_spec_witness :
    (trapezoidal_integration ⟨1, 2, 3⟩ ⟨4, 5, 6⟩ (some ⟨2, 0, 2⟩) 2).x
        = (95 / 100) * 1 + 2 * (2 + 4) / 2 ∧
    (process_velocity_step ⟨some 1, ⟨1, 2, 3⟩, none⟩ ⟨4, 5, 6⟩ 2).prev_accel
        = some ⟨4, 5, 6⟩ := by
  have h := trapezoidal_integration_spec ⟨1, 2, 3⟩ ⟨4, 5, 6⟩ ⟨2, 0, 2⟩ 2
    ⟨some 1, ⟨1, 2, 3⟩, none⟩ 1 2 rfl
  exact ⟨h.1.1, h.2.2⟩

/-- Configuration of `JerkDetector` (MotionAnalyzer.py lines 240-244):
`trigger_threshold`, `zero_threshold`, `minimum_duration`. -/
structure JerkThresholds where
  trigger_threshold : ℚ
  zero_threshold : ℚ
  minimum_duration : ℚ
deriving DecidableEq, Repr

/-- The default thresholds of `JerkDetector.__init__`
(trigger 1000.0, zero 100.0, minimum duration 0.03). -/
def defaultJerkThresholds : JerkThresholds := ⟨1000, 100, 3 / 100⟩

/-- The mutable `jerk_state` dict of `JerkDetector`
(MotionAnalyzer.py lines 251-255). -/
structure JerkState where
  is_high_jerk : Bool
  high_jerk_start_time : Option ℚ
  last_snap_time : Option ℚ
deriving DecidableEq, Repr

/-- Events `JerkDetector._detect_snap` passes to `notify`. -/
inductive JerkEvent where
  | jerk_start (timestamp jerk_magnitude : ℚ)
  | snap_detected (timestamp duration : ℚ) (interval : Option ℚ)
deriving DecidableEq, Repr

/-- Outcome of one `_detect_snap` call: the state left behind by the call,
the event passed to `notify` (if any), and whether the call raised an
exception instead of returning. -/
structure SnapOutcome where
  state : JerkState
  event : Option JerkEvent
  raised : Bool
deriving DecidableEq, Repr

/-- Model of `JerkDetector._detect_snap` (MotionAnalyzer.py lines
280-316).  In the high-jerk branch with `duration < minimum_duration`
the Python code still mutates the state to quiescent and then executes
`return result` with the local variable `result` unbound, which raises
`UnboundLocalError`; this is modelled by `raised := true` with the
mutations that happened before the raise applied to the state. -/
def detect_snap (th : JerkThresholds) (s : JerkState)
    (jerk_magnitude timestamp : ℚ) : SnapOutcome :=
  if s.is_high_jerk = false ∧ th.trigger_threshold < jerk_magnitude then
    { state := { s with is_high_jerk := true
                        high_jerk_start_time := some timestamp }
      event := some (JerkEvent.jerk_start timestamp jerk_magnitude)
      raised := false }
  else if s.is_high_jerk = true ∧ jerk_magnitude < th.zero_threshold then
    let duration := timestamp - s.high_jerk_start_time.getD 0
    if th.minimum_duration ≤ duration then
      { state := { is_high_jerk := false
                   high_jerk_start_time := none
                   last_snap_time := some timestamp }
        event := some (JerkEvent.snap_detected timestamp duration
          (s.last_snap_time.map (fun tl => timestamp - tl)))
        raised := false }
    else
      { state := { is_high_jerk := false
                   high_jerk_start_time := none
                   last_snap_time := s.last_snap_time }
        event := none
        raised := true }
  else { state := s, event := none, raised := false }

/-- Model of `JerkDetector._calculate_jerk` (MotionAnalyzer.py lines
273-278), applied to the two most recent history entries: if
`dt = t_now - t_prev > 0` the jerk is `|(a_now - a_prev) / dt|`,
otherwise 0. -/
def calculate_jerk (a_prev a_now t_prev t_now : ℚ) : ℚ :=
  if 0 < t_now - t_prev then |(a_now - a_prev) / (t_now - t_prev)| else 0

/-- C2: in the high-jerk state, a sample with jerk magnitude 50 below the
default zero threshold 100 arriving 0.01 s after the episode started
(shorter than the 0.03 s minimum duration) leaves the detector quiescent
and emits no event, but the call raises (`return result` reads the
never-assigned local `result`) instead of returning normally. -/
theorem detect_snap_short_episode_raises :
    (detect_snap defaultJerkThresholds ⟨true, some 0, none⟩ 50
        (1 / 100)).state.is_high_jerk = false ∧
    (detect_snap defaultJerkThresholds ⟨true, some 0, none⟩ 50
        (1 / 100)).event = none ∧
    (detect_snap defaultJerkThresholds ⟨true, some 0, none⟩ 50
        (1 / 100)).raised = true := by
  norm_num [detect_snap, defaultJerkThresholds]

/-- C10: a jerk-detector call whose timestamp is at most the previous
sample's timestamp computes jerk magnitude exactly 0, and if the detector
is in the high-jerk state with a positive zero threshold, feeding that
zero jerk to `_detect_snap` leaves the detector quiescent. -/
theorem nonpos_dt_zero_jerk_ends_episode (a_prev a_now t_prev t_now : ℚ)
    (h : t_now ≤ t_prev) (th : JerkThresholds) (s : JerkState)
    (hz : 0 < th.zero_threshold) (hs : s.is_high_jerk = true) (t : ℚ) :
    calculate_jerk a_prev a_now t_prev t_now = 0 ∧
    (detect_snap th s (calculate_jerk a_prev a_now t_prev t_now)
      t).state.is_high_jerk = false := by
  have hj : calculate_jerk a_prev a_now t_prev t_now = 0 := by
    have : ¬ (0 < t_now - t_prev) := by linarith
    simp [calculate_jerk, this]
  refine ⟨hj, ?_⟩
  rw [hj]
  have h1 : ¬ (s.is_high_jerk = false ∧ th.trigger_threshold < (0 : ℚ)) := by
    simp [hs]
  have h2 : s.is_high_jerk = true ∧ (0 : ℚ) < th.zero_threshold := ⟨hs, hz⟩
  by_cases hd : th.minimum_duration ≤ t - s.high_jerk_start_time.getD 0 <;>
    simp [detect_snap, h1, h2, hd]

/-- Witness for the C10 theorem at concrete inputs. -/
theorem nonpos_dt_zero_jerk_ends_episode_witness :
    calculate_jerk 5 3 2 1 = 0 ∧
    (detect_snap defaultJerkThresholds ⟨true, some 0, none⟩
      (calculate_jerk 5 3 2 1) 5).state.is_high_jerk = false :=
  nonpos_dt_zero_jerk_ends_episode 5 3 2 1 (by norm_num)
    defaultJerkThresholds ⟨true, some 0, none⟩
    (by norm_num [defaultJerkThresholds]) rfl 5

/-- State left behind by one `_detect_snap` call on one (jerk, timestamp)
input. -/
def snapStepState (th : JerkThresholds) (s : JerkState) (inp : ℚ × ℚ) :
    JerkState :=
  (detect_snap th s inp.1 inp.2).state

/-- The detector state before processing the n-th input of a stream of
(jerk magnitude, timestamp) samples. -/
def jerkStates (th : JerkThresholds) (s0 : JerkState) (inp : ℕ → ℚ × ℚ) :
    ℕ → JerkState
  | 0 => s0
  | n + 1 => snapStepState th (jerkStates th s0 inp n) (inp n)

/-- The event emitted while processing the n-th input of the stream. -/
def jerkEventAt (th : JerkThresholds) (s0 : JerkState) (inp : ℕ → ℚ × ℚ)
    (n : ℕ) : Option JerkEvent :=
  (detect_snap th (jerkStates th s0 inp n) (inp n).1 (inp n).2).event

/-- Recognizer for the `jerk_start` ("Start") event. -/
def isStartEvent : Option JerkEvent → Bool
  | some (JerkEvent.jerk_start _ _) => true
  | _ => false

/-- A `jerk_start` event is emitted only from the quiescent state, and the
call that emits it leaves the detector in the high-jerk state. -/
theorem start_event_characterization (th : JerkThresholds) (s : JerkState)
    (j t : ℚ) (h : isStartEvent (detect_snap th s j t).event = true) :
    s.is_high_jerk = false ∧ (detect_snap th s j t).state.is_high_jerk = true := by
  by_cases h1 : s.is_high_jerk = false ∧ th.trigger_threshold < j
  · refine ⟨h1.1, ?_⟩
    simp [detect_snap, h1]
  · exfalso
    by_cases h2 : s.is_high_jerk = true ∧ j < th.zero_threshold
    · by_cases h3 : th.minimum_duration ≤ t - s.high_jerk_start_time.getD 0 <;>
        simp [detect_snap, h1, h2, h3, isStartEvent] at h
    · simp [detect_snap, h1, h2, isStartEvent] at h

/-- In the high-jerk state, a sample whose jerk magnitude is not below the
zero threshold leaves the detector in the high-jerk state. -/
theorem high_jerk_persists (th : JerkThresholds) (s : JerkState) (j t : ℚ)
    (hs : s.is_high_jerk = true) (hnz : ¬ j < th.zero_threshold) :
    (detect_snap th s j t).state.is_high_jerk = true := by
  have h1 : ¬ (s.is_high_jerk = false ∧ th.trigger_threshold < j) := by
    simp [hs]
  have h2 : ¬ (s.is_high_jerk = true ∧ j < th.zero_threshold) := by
    simp [hs, hnz]
  simp [detect_snap, h1, h2, hs, hnz]

/-- Along the processed stream, the high-jerk flag can only fall from true
to false on a sample whose jerk magnitude is below the zero threshold
while the detector is still in the high-jerk state. -/
theorem high_to_low_has_drop (th : JerkThresholds) (s0 : JerkState)
    (inp : ℕ → ℚ × ℚ) :
    ∀ b a, a ≤ b → (jerkStates th s0 inp a).is_high_jerk = true →
      (jerkStates th s0 inp b).is_high_jerk = false →
      ∃ k, a ≤ k ∧ k < b ∧ (jerkStates th s0 inp k).is_high_jerk = true ∧
        (inp k).1 < th.zero_threshold := by
  intro b
  induction b with
  | zero =>
    intro a ha hh hl
    have ha0 : a = 0 := Nat.le_zero.mp ha
    rw [ha0] at hh
    rw [hh] at hl
    exact absurd hl (by simp)
  | succ n ih =>
    intro a ha hh hl
    rcases Nat.lt_or_ge a (n + 1) with hlt | hge
    · have han : a ≤ n := Nat.lt_succ_iff.mp hlt
      by_cases hn : (jerkStates th s0 inp n).is_high_jerk = true
      · by_cases hz : (inp n).1 < th.zero_threshold
        · exact ⟨n, han, Nat.lt_succ_self n, hn, hz⟩
        · exfalso
          have hp := high_jerk_persists th (jerkStates th s0 inp n)
            (inp n).1 (inp n).2 hn hz
          have he : jerkStates th s0 inp (n + 1)
              = snapStepState th (jerkStates th s0 inp n) (inp n) := rfl
          rw [he] at hl
          rw [snapStepState] at hl
          rw [hp] at hl
          exact absurd hl (by simp)
      · have hn' : (jerkStates th s0 inp n).is_high_jerk = false := by
          cases hcase : (jerkStates th s0 inp n).is_high_jerk
          · rfl
          · exact absurd hcase hn
        obtain ⟨k, hk1, hk2, hk3, hk4⟩ := ih a han hh hn'
        exact ⟨k, hk1, Nat.lt_succ_of_lt hk2, hk3, hk4⟩
    · have hae : a = n + 1 := Nat.le_antisymm ha hge
      rw [hae] at hh
      rw [hh] at hl
      exact absurd hl (by simp)

/-- C9: the detector never emits two Start events without an intervening
high-jerk-to-quiescent transition.  A Start at step j can only be emitted
with the high-jerk flag false, and between any two Start-emitting steps i
and j there is a step k at which the jerk magnitude fell below the zero
threshold while the detector was in the high-jerk state. -/
theorem start_events_separated (th : JerkThresholds) (s0 : JerkState)
    (inp : ℕ → ℚ × ℚ) (i j : ℕ) (hij : i < j)
    (hi : isStartEvent (jerkEventAt th s0 inp i) = true)
    (hj : isStartEvent (jerkEventAt th s0 inp j) = true) :
    (jerkStates th s0 inp j).is_high_jerk = false ∧
    ∃ k, i < k ∧ k < j ∧ (jerkStates th s0 inp k).is_high_jerk = true ∧
      (inp k).1 < th.zero_threshold := by
  rw [jerkEventAt] at hi hj
  have hpre_i := start_event_characterization th (jerkStates th s0 inp i)
    (inp i).1 (inp i).2 hi
  have hpre_j := start_event_characterization th (jerkStates th s0 inp j)
    (inp j).1 (inp j).2 hj
  have hhigh : (jerkStates th s0 inp (i + 1)).is_high_jerk = true := by
    have he : jerkStates th s0 inp (i + 1)
        = snapStepState th (jerkStates th s0 inp i) (inp i) := rfl
    rw [he, snapStepState]
    exact hpre_i.2
  obtain ⟨k, hk1, hk2, hk3, hk4⟩ := high_to_low_has_drop th s0 inp j (i + 1)
    (Nat.succ_le_of_lt hij) hhigh hpre_j.1
  exact ⟨hpre_j.1, k, Nat.lt_of_succ_le hk1, hk2, hk3, hk4⟩

/-- A concrete three-sample stream: a triggering jerk at t = 0, a
quiescent sample at t = 1 (ending the episode), a triggering jerk at
t = 2. -/
def startStream : ℕ → ℚ × ℚ :=
  fun n => if n = 0 then (2000, 0) else if n = 1 then (50, 1) else (2000, 2)

/-- Witness for the C9 theorem on the concrete stream `startStream`. -/
theorem start_events_separated_witness :
    isStartEvent (jerkEventAt defaultJerkThresholds ⟨false, none, none⟩
      startStream 0) = true ∧
    isStartEvent (jerkEventAt defaultJerkThresholds ⟨false, none, none⟩
      startStream 2) = true ∧
    (∃ k, 0 < k ∧ k < 2 ∧
      (jerkStates defaultJerkThresholds ⟨false, none, none⟩ startStream
        k).is_high_jerk = true ∧
      (startStream k).1 < defaultJerkThresholds.zero_threshold) := by
  have h0 : isStartEvent (jerkEventAt defaultJerkThresholds
      ⟨false, none, none⟩ startStream 0) = true := by
    norm_num [jerkEventAt, jerkStates, detect_snap, startStream,
      defaultJerkThresholds, isStartEvent]
  have h2 : isStartEvent (jerkEventAt defaultJerkThresholds
      ⟨false, none, none⟩ startStream 2) = true := by
    have e1 : jerkStates defaultJerkThresholds ⟨false, none, none⟩
        startStream 1 = ⟨true, some 0, none⟩ := by
      show snapStepState defaultJerkThresholds
        (jerkStates defaultJerkThresholds ⟨false, none, none⟩ startStream 0)
        (startStream 0) = _
      norm_num [jerkStates, snapStepState, detect_snap, startStream,
        defaultJerkThresholds]
    have e2 : jerkStates defaultJerkThresholds ⟨false, none, none⟩
        startStream 2 = ⟨false, none, some 1⟩ := by
      show snapStepState defaultJerkThresholds
        (jerkStates defaultJerkThresholds ⟨false, none, none⟩ startStream 1)
        (startStream 1) = _
      rw [e1]
      norm_num [snapStepState, detect_snap, startStream,
        defaultJerkThresholds]
    simp only [jerkEventAt, e2]
    norm_num [detect_snap, startStream, defaultJerkThresholds, isStartEvent]
  exact ⟨h0, h2, (start_events_separated defaultJerkThresholds
    ⟨false, none, none⟩ startStream 0 2 (by norm_num) h0 h2).2⟩

/-- Model of `FrequencyAnalyzer._refine_frequency` (MotionAnalyzer.py
lines 199-219).  List indexing `xs[i]` (in range at every call site) is
modelled with `List.getD xs i 0`.  The Python guard
`peak_idx == 0 or peak_idx >= len(power) - 1` uses truncated natural
subtraction exactly as the code behaves on the in-range indices the
caller supplies. -/
def refine_frequency (frequencies power : List ℚ) (peak_idx : ℕ) : ℚ :=
  if peak_idx = 0 ∨ power.length - 1 ≤ peak_idx then
    frequencies.getD peak_idx 0
  else
    let y1 := power.getD (peak_idx - 1) 0
    let y2 := power.getD peak_idx 0
    let y3 := power.getD (peak_idx + 1) 0
    let a := (y1 - 2 * y2 + y3) / 2
    if a ≠ 0 then
      frequencies.getD peak_idx 0
        + ((y1 - y3) / (4 * a))
          * (frequencies.getD 1 0 - frequencies.getD 0 0)
    else
      frequencies.getD peak_idx 0

/-- C6: for an interior peak bin with nonzero curvature denominator the
refined frequency is the peak bin frequency plus
`(y1 - y3) / (2 * (y1 - 2*y2 + y3))` times the bin width
`frequencies[1] - frequencies[0]`; at either edge of the
positive-frequency array, or when the denominator vanishes, the raw bin
frequency is returned unchanged. -/
theorem refine_frequency_spec (frequencies power : List ℚ) (i : ℕ) :
    (i ≠ 0 → i < power.length - 1 →
      power.getD (i - 1) 0 - 2 * power.getD i 0 + power.getD (i + 1) 0 ≠ 0 →
      refine_frequency frequencies power i
        = frequencies.getD i 0
          + ((power.getD (i - 1) 0 - power.getD (i + 1) 0)
              / (2 * (power.getD (i - 1) 0 - 2 * power.getD i 0
                       + power.getD (i + 1) 0)))
            * (frequencies.getD 1 0 - frequencies.getD 0 0)) ∧
    ((i = 0 ∨ power.length - 1 ≤ i ∨
        power.getD (i - 1) 0 - 2 * power.getD i 0 + power.getD (i + 1) 0 = 0) →
      refine_frequency frequencies power i = frequencies.getD i 0) := by
  constructor
  · intro h0 hlen hden
    have hguard : ¬ (i = 0 ∨ power.length - 1 ≤ i) := by
      push_neg
      exact ⟨h0, hlen⟩
    have ha : (power.getD (i - 1) 0 - 2 * power.getD i 0
        + power.getD (i + 1) 0) / 2 ≠ 0 := by
      intro hc
      rw [div_eq_zero_iff] at hc
      rcases hc with hc | hc
      · exact hden hc
      · norm_num at hc
    rw [refine_frequency, if_neg hguard]
    simp only [if_pos ha]
    congr 1
    rw [div_mul_eq_mul_div, div_mul_eq_mul_div]
    congr 1
    ring
  · intro h
    rcases h with h | h | h
    · rw [refine_frequency, if_pos (Or.inl h)]
    · rw [refine_frequency, if_pos (Or.inr h)]
    · by_cases hguard : i = 0 ∨ power.length - 1 ≤ i
      · rw [refine_frequency, if_pos hguard]
      · have ha : ¬ ((power.getD (i - 1) 0 - 2 * power.getD i 0
            + power.getD (i + 1) 0) / 2 ≠ 0) := by
          rw [h]
          norm_num
        rw [refine_frequency, if_neg hguard]
        simp only [if_neg ha]

/-- Witness for the C6 theorem on a concrete three-bin spectrum. -/
theorem refine_frequency_spec_witness :
    refine_frequency [1, 2, 3] [1, 5, 2] 1
      = 2 + ((1 - 2) / (2 * (1 - 2 * 5 + 2))) * (3 - 2) := by
  have h := (refine_frequency_spec [1, 2, 3] [1, 5, 2] 1).1
    (by norm_num) (by norm_num) (by norm_num [List.getD])
  rw [h]
  norm_num [List.getD]

/-- One window's spectral measurement for an axis buffer: the refined
peak frequency, the prominence and the normalized entropy that
`FrequencyAnalyzer._analyze_axis` computes from the most recent `w`
samples via the FFT (MotionAnalyzer.py lines 156-177).  The numeric
pipeline producing these three numbers is kept abstract; the logic of
`_analyze_axis` and `_detect_periodicity` is modelled on top of it. -/
structure Meas where
  freq : ℚ
  prom : ℚ
  ent : ℚ

/-- The `prominence` / `entropy` threshold configuration of
`FrequencyAnalyzer` (defaults 0.7 and 0.3). -/
structure FreqThresholds where
  prominence : ℚ
  entropy : ℚ

/-- The per-axis best result dict of `_analyze_axis`
(initially `{'detected': False, 'confidence': 0}`). -/
structure AxisResult where
  detected : Bool
  frequency : ℚ
  confidence : ℚ
deriving DecidableEq, Repr

/-- The window sizes tried by `FrequencyAnalyzer` (MotionAnalyzer.py
line 76). -/
def window_sizes : List ℕ := [64, 128, 256, 512, 1024]

/-- One iteration of the window loop of `_analyze_axis`
(MotionAnalyzer.py lines 150-195): skip the window if the buffer is too
short, otherwise accept the window's estimate exactly when
`prominence > prominence_threshold and entropy < entropy_threshold`,
with confidence `prominence * (1 - entropy)`, and keep it when its
confidence beats the best so far. -/
def analyze_axis_step (th : FreqThresholds) (len : ℕ) (measure : ℕ → Meas)
    (best : AxisResult) (w : ℕ) : AxisResult :=
  if len < w then best
  else if th.prominence < (measure w).prom ∧ (measure w).ent < th.entropy then
    if best.confidence < (measure w).prom * (1 - (measure w).ent) then
      ⟨true, (measure w).freq, (measure w).prom * (1 - (measure w).ent)⟩
    else best
  else best

/-- Model of `FrequencyAnalyzer._analyze_axis` (MotionAnalyzer.py lines
143-197): with fewer than 64 buffered samples the result is
not-detected; otherwise the window loop folds over `window_sizes`. -/
def analyze_axis (th : FreqThresholds) (len : ℕ) (measure : ℕ → Meas) :
    AxisResult :=
  if len < 64 then ⟨false, 0, 0⟩
  else window_sizes.foldl (analyze_axis_step th len measure) ⟨false, 0, 0⟩

/-- A window `w` yields an accepted estimate for an axis buffer: the
buffer holds at least `w` samples and the window's measurement passes
both threshold tests. -/
def acceptedWindow (th : FreqThresholds) (len : ℕ) (measure : ℕ → Meas)
    (w : ℕ) : Prop :=
  w ≤ len ∧ th.prominence < (measure w).prom ∧ (measure w).ent < th.entropy

/-- The confidence score `prominence * (1 - entropy)` of a window's
estimate. -/
def windowConfidence (measure : ℕ → Meas) (w : ℕ) : ℚ :=
  (measure w).prom * (1 - (measure w).ent)

/-- An accepted estimate has strictly positive confidence whenever the
prominence threshold is nonnegative and the entropy threshold is at
most 1. -/
theorem acceptedWindow_conf_pos (th : FreqThresholds) (len : ℕ)
    (measure : ℕ → Meas) (w : ℕ) (hp : 0 ≤ th.prominence)
    (he : th.entropy ≤ 1) (h : acceptedWindow th len measure w) :
    0 < windowConfidence measure w := by
  have h1 : 0 < (measure w).prom := lt_of_le_of_lt hp h.2.1
  have h2 : 0 < 1 - (measure w).ent := by
    have := h.2.2
    linarith
  exact mul_pos h1 h2

/-- Invariant of the window loop of `_analyze_axis`: the fold result is
the initial accumulator or comes from an accepted window, it dominates
the confidence of every accepted window and of the accumulator, it is
detected iff the accumulator was detected or some window was accepted. -/
theorem analyze_axis_foldl_inv (th : FreqThresholds) (len : ℕ)
    (measure : ℕ → Meas) (hp : 0 ≤ th.prominence) (he : th.entropy ≤ 1) :
    ∀ (ws : List ℕ) (b : AxisResult),
      (b.detected = false → b.confidence = 0) →
      ((ws.foldl (analyze_axis_step th len measure) b = b ∨
        ∃ w ∈ ws, acceptedWindow th len measure w ∧
          (ws.foldl (analyze_axis_step th len measure) b).detected = true ∧
          (ws.foldl (analyze_axis_step th len measure) b).frequency
            = (measure w).freq ∧
          (ws.foldl (analyze_axis_step th len measure) b).confidence
            = windowConfidence measure w) ∧
       (∀ w ∈ ws, acceptedWindow th len measure w →
         windowConfidence measure w
           ≤ (ws.foldl (analyze_axis_step th len measure) b).confidence) ∧
       b.confidence ≤ (ws.foldl (analyze_axis_step th len measure) b).confidence ∧
       (b.detected = true →
         (ws.foldl (analyze_axis_step th len measure) b).detected = true) ∧
       ((ws.foldl (analyze_axis_step th len measure) b).detected = true ↔
         (b.detected = true ∨ ∃ w ∈ ws, acceptedWindow th len measure w))) := by
  intro ws
  induction ws with
  | nil =>
    intro b hb0
    refine ⟨Or.inl rfl, ?_, le_refl _, fun h => h, ?_⟩
    · intro w hw
      exact absurd hw (List.not_mem_nil w)
    · simp
  | cons w ws ih =>
    intro b hb0
    rw [List.foldl_cons]
    by_cases hlen : len < w
    · have hstep : analyze_axis_step th len measure b w = b := by
        simp [analyze_axis_step, hlen]
      rw [hstep]
      have hnacc : ¬ acceptedWindow th len measure w := by
        intro hacc
        exact absurd hacc.1 (by omega)
      obtain ⟨A, B, C, D, E⟩ := ih b hb0
      refine ⟨?_, ?_, C, D, ?_⟩
      · rcases A with h | ⟨w', hw', hrest⟩
        · exact Or.inl h
        · exact Or.inr ⟨w', List.mem_cons_of_mem _ hw', hrest⟩
      · intro w' hw' hacc
        rcases List.mem_cons.mp hw' with h | h
        · rw [h] at hacc
          exact absurd hacc hnacc
        · exact B w' h hacc
      · rw [E]
        constructor
        · rintro (h | ⟨w', hw', hacc⟩)
          · exact Or.inl h
          · exact Or.inr ⟨w', List.mem_cons_of_mem _ hw', hacc⟩
        · rintro (h | ⟨w', hw', hacc⟩)
          · exact Or.inl h
          · rcases List.mem_cons.mp hw' with h' | h'
            · rw [h'] at hacc
              exact absurd hacc hnacc
            · exact Or.inr ⟨w', h', hacc⟩
    · by_cases hth : th.prominence < (measure w).prom ∧ (measure w).ent < th.entropy
      · have haccW : acceptedWindow th len measure w :=
          ⟨Nat.le_of_not_lt hlen, hth⟩
        have hconfpos : 0 < windowConfidence measure w :=
          acceptedWindow_conf_pos th len measure w hp he haccW
        by_cases himp : b.confidence < (measure w).prom * (1 - (measure w).ent)
        · have hstep : analyze_axis_step th len measure b w
              = ⟨true, (measure w).freq,
                  (measure w).prom * (1 - (measure w).ent)⟩ := by
            simp [analyze_axis_step, hlen, hth, himp]
          rw [hstep]
          obtain ⟨A, B, C, D, E⟩ := ih
            ⟨true, (measure w).freq, (measure w).prom * (1 - (measure w).ent)⟩
            (by simp)
          have hdet : (ws.foldl (analyze_axis_step th len measure)
              ⟨true, (measure w).freq,
                (measure w).prom * (1 - (measure w).ent)⟩).detected = true :=
            D rfl
          refine ⟨?_, ?_, ?_, fun _ => hdet, ?_⟩
          · rcases A with h | ⟨w', hw', hrest⟩
            · refine Or.inr ⟨w, List.mem_cons_self w ws, haccW, ?_, ?_, ?_⟩
              · rw [h]
              · rw [h]
              · rw [h]
                rfl
            · exact Or.inr ⟨w', List.mem_cons_of_mem _ hw', hrest⟩
          · intro w' hw' hacc
            rcases List.mem_cons.mp hw' with h | h
            · rw [h]
              simpa [windowConfidence] using C
            · exact B w' h hacc
          · exact le_trans (le_of_lt himp) C
          · simp only [hdet, true_iff]
            exact Or.inr ⟨w, List.mem_cons_self w ws, haccW⟩
        · have hstep : analyze_axis_step th len measure b w = b := by
            simp [analyze_axis_step, hlen, hth, himp]
          rw [hstep]
          have hbconf : windowConfidence measure w ≤ b.confidence := by
            simpa [windowConfidence] using not_lt.mp himp
          have hbdet : b.detected = true := by
            by_contra hbd
            have hbd' : b.detected = false := by
              cases hcase : b.detected
              · rfl
              · exact absurd hcase hbd
            have := hb0 hbd'
            rw [this] at hbconf
            exact absurd (lt_of_lt_of_le hconfpos hbconf) (lt_irrefl 0)
          obtain ⟨A, B, C, D, E⟩ := ih b hb0
          have hdet := D hbdet
          refine ⟨?_, ?_, C, fun _ => hdet, ?_⟩
          · rcases A with h | ⟨w', hw', hrest⟩
            · exact Or.inl h
            · exact Or.inr ⟨w', List.mem_cons_of_mem _ hw', hrest⟩
          · intro w' hw' hacc
            rcases List.mem_cons.mp hw' with h | h
            · rw [h]
              exact le_trans hbconf C
            · exact B w' h hacc
          · simp only [hdet, true_iff]
            exact Or.inl hbdet
      · have hstep : analyze_axis_step th len measure b w = b := by
          simp [analyze_axis_step, hlen, hth]
        rw [hstep]
        have hnacc : ¬ acceptedWindow th len measure w := by
          intro hacc
          exact hth hacc.2
        obtain ⟨A, B, C, D, E⟩ := ih b hb0
        refine ⟨?_, ?_, C, D, ?_⟩
        · rcases A with h | ⟨w', hw', hrest⟩
          · exact Or.inl h
          · exact Or.inr ⟨w', List.mem_cons_of_mem _ hw', hrest⟩
        · intro w' hw' hacc
          rcases List.mem_cons.mp hw' with h | h
          · rw [h] at hacc
            exact absurd hacc hnacc
          · exact B w' h hacc
        · rw [E]
          constructor
          · rintro (h | ⟨w', hw', hacc⟩)
            · exact Or.inl h
            · exact Or.inr ⟨w', List.mem_cons_of_mem _ hw', hacc⟩
          · rintro (h | ⟨w', hw', hacc⟩)
            · exact Or.inl h
            · rcases List.mem_cons.mp hw' with h' | h'
              · rw [h'] at hacc
                exact absurd hacc hnacc
              · exact Or.inr ⟨w', h', hacc⟩

/-- Characterization of `_analyze_axis`: the per-axis result is detected
iff some tried window yields an accepted estimate, its confidence
dominates every accepted window's confidence, a detected result carries
the frequency and confidence of some accepted window, and an undetected
result has confidence 0. -/
theorem analyze_axis_spec (th : FreqThresholds) (len : ℕ)
    (measure : ℕ → Meas) (hp : 0 ≤ th.prominence) (he : th.entropy ≤ 1) :
    ((analyze_axis th len measure).detected = true ↔
      ∃ w ∈ window_sizes, acceptedWindow th len measure w) ∧
    (∀ w ∈ window_sizes, acceptedWindow th len measure w →
      windowConfidence measure w ≤ (analyze_axis th len measure).confidence) ∧
    ((analyze_axis th len measure).detected = true →
      ∃ w ∈ window_sizes, acceptedWindow th len measure w ∧
        (analyze_axis th len measure).frequency = (measure w).freq ∧
        (analyze_axis th len measure).confidence
          = windowConfidence measure w) ∧
    ((analyze_axis th len measure).detected = false →
      (analyze_axis th len measure).confidence = 0) := by
  by_cases hlen : len < 64
  · have hnone : ∀ w ∈ window_sizes, ¬ acceptedWindow th len measure w := by
      intro w hw hacc
      have h64 : 64 ≤ w := by
        have hcases : w = 64 ∨ w = 128 ∨ w = 256 ∨ w = 512 ∨ w = 1024 := by
          simpa [window_sizes] using hw
        rcases hcases with h | h | h | h | h <;> omega
      exact absurd hacc.1 (by omega)
    have heq : analyze_axis th len measure = ⟨false, 0, 0⟩ := by
      simp [analyze_axis, hlen]
    rw [heq]
    refine ⟨?_, ?_, ?_, fun _ => rfl⟩
    · simp only [show (AxisResult.mk false 0 0).detected = false from rfl]
      constructor
      · intro h
        exact absurd h (by simp)
      · rintro ⟨w, hw, hacc⟩
        exact absurd hacc (hnone w hw)
    · intro w hw hacc
      exact absurd hacc (hnone w hw)
    · intro h
      exact absurd h (by simp)
  · have heq : analyze_axis th len measure
        = window_sizes.foldl (analyze_axis_step th len measure)
            ⟨false, 0, 0⟩ := by
      simp [analyze_axis, hlen]
    obtain ⟨A, B, C, D, E⟩ := analyze_axis_foldl_inv th len measure hp he
      window_sizes ⟨false, 0, 0⟩ (fun _ => rfl)
    rw [heq]
    refine ⟨?_, B, ?_, ?_⟩
    · rw [E]
      simp
    · intro hdet
      rcases A with h | ⟨w, hw, hacc, _, hf, hc⟩
      · rw [h] at hdet
        exact absurd hdet (by simp)
      · exact ⟨w, hw, hacc, hf, hc⟩
    · intro hdet
      rcases A with h | ⟨w, hw, hacc, hd, _, _⟩
      · rw [h]
      · rw [hd] at hdet
        exact absurd hdet (by simp)

/-- One analysed axis buffer: its current length and its abstract
per-window measurement. -/
structure AxisInput where
  len : ℕ
  measure : ℕ → Meas

/-- The overall result dict of `_detect_periodicity`
(MotionAnalyzer.py lines 104-141), restricted to the fields the claims
are about. -/
structure OverallResult where
  detected : Bool
  best_frequency : ℚ
  best_confidence : ℚ

/-- One step of Python's `max(all_detections, key=confidence)`: a later
candidate replaces the current maximum only when strictly greater. -/
def pickStep (acc : Option AxisResult) (r : AxisResult) : Option AxisResult :=
  match acc with
  | none => some r
  | some b => if b.confidence < r.confidence then some r else some b

/-- Model of `max(all_detections, key=lambda x: x['confidence'])`. -/
def pickBest (l : List AxisResult) : Option AxisResult :=
  l.foldl pickStep none

/-- Model of `FrequencyAnalyzer._detect_periodicity` (MotionAnalyzer.py
lines 102-141): analyse every axis buffer, collect the detected axis
results, and report detected with the best detection's frequency and
confidence iff that collection is non-empty. -/
def detect_periodicity (th : FreqThresholds) (axes : List AxisInput) :
    OverallResult :=
  match pickBest (((axes.map
      (fun a => analyze_axis th a.len a.measure)).filter
        (fun r => r.detected))) with
  | some b => ⟨true, b.frequency, b.confidence⟩
  | none => ⟨false, 0, 0⟩

/-- Folding `pickStep` from a present accumulator yields an element of
the list or the accumulator, dominating all of their confidences. -/
theorem pickStep_foldl (l : List AxisResult) :
    ∀ b : AxisResult, ∃ c, l.foldl pickStep (some b) = some c ∧
      (c = b ∨ c ∈ l) ∧ b.confidence ≤ c.confidence ∧
      ∀ r ∈ l, r.confidence ≤ c.confidence := by
  induction l with
  | nil =>
    intro b
    exact ⟨b, rfl, Or.inl rfl, le_refl _, fun r hr =>
      absurd hr (List.not_mem_nil r)⟩
  | cons r l ih =>
    intro b
    rw [List.foldl_cons]
    by_cases h : b.confidence < r.confidence
    · have hstep : pickStep (some b) r = some r := by
        simp [pickStep, h]
      rw [hstep]
      obtain ⟨c, hc1, hc2, hc3, hc4⟩ := ih r
      refine ⟨c, hc1, ?_, le_trans (le_of_lt h) hc3, ?_⟩
      · rcases hc2 with h' | h'
        · exact Or.inr (by rw [h']; exact List.mem_cons_self r l)
        · exact Or.inr (List.mem_cons_of_mem _ h')
      · intro r' hr'
        rcases List.mem_cons.mp hr' with h' | h'
        · rw [h']
          exact hc3
        · exact hc4 r' h'
    · have hstep : pickStep (some b) r = some b := by
        simp [pickStep, h]
      rw [hstep]
      obtain ⟨c, hc1, hc2, hc3, hc4⟩ := ih b
      refine ⟨c, hc1, ?_, hc3, ?_⟩
      · rcases hc2 with h' | h'
        · exact Or.inl h'
        · exact Or.inr (List.mem_cons_of_mem _ h')
      · intro r' hr'
        rcases List.mem_cons.mp hr' with h' | h'
        · rw [h']
          exact le_trans (not_lt.mp h) hc3
        · exact hc4 r' h'

/-- On a non-empty list `pickBest` returns a member whose confidence
dominates every member's confidence. -/
theorem pickBest_spec (l : List AxisResult) (h : l ≠ []) :
    ∃ c, pickBest l = some c ∧ c ∈ l ∧
      ∀ r ∈ l, r.confidence ≤ c.confidence := by
  match l, h with
  | r :: l, _ =>
    rw [pickBest, List.foldl_cons]
    have hstep : pickStep none r = some r := rfl
    rw [hstep]
    obtain ⟨c, hc1, hc2, hc3, hc4⟩ := pickStep_foldl l r
    refine ⟨c, hc1, ?_, ?_⟩
    · rcases hc2 with h' | h'
      · rw [h']
        exact List.mem_cons_self r l
      · exact List.mem_cons_of_mem _ h'
    · intro r' hr'
      rcases List.mem_cons.mp hr' with h' | h'
      · rw [h']
        exact hc3
      · exact hc4 r' h'

/-- C4: a window's estimate is accepted exactly when prominence exceeds
the prominence threshold and entropy is below the entropy threshold,
with confidence `prominence * (1 - entropy)` (the `acceptedWindow` /
`windowConfidence` conditions); each axis keeps the highest-confidence
accepted estimate over all tried window sizes; the overall `detected`
flag is true iff at least one axis produced an accepted estimate; and
`best_frequency` / `best_confidence` come from a single accepted
estimate whose confidence dominates every accepted estimate across all
axes.  The thresholds are assumed sane (nonnegative prominence
threshold, entropy threshold at most 1), as the defaults 0.7 / 0.3
are. -/
theorem frequency_analysis_spec (th : FreqThresholds) (axes : List AxisInput)
    (hp : 0 ≤ th.prominence) (he : th.entropy ≤ 1) :
    ((detect_periodicity th axes).detected = true ↔
      ∃ a ∈ axes, ∃ w ∈ window_sizes, acceptedWindow th a.len a.measure w) ∧
    (∀ a ∈ axes,
      (((analyze_axis th a.len a.measure).detected = true) ↔
        ∃ w ∈ window_sizes, acceptedWindow th a.len a.measure w) ∧
      (∀ w ∈ window_sizes, acceptedWindow th a.len a.measure w →
        windowConfidence a.measure w
          ≤ (analyze_axis th a.len a.measure).confidence) ∧
      ((analyze_axis th a.len a.measure).detected = true →
        ∃ w ∈ window_sizes, acceptedWindow th a.len a.measure w ∧
          (analyze_axis th a.len a.measure).frequency = (a.measure w).freq ∧
          (analyze_axis th a.len a.measure).confidence
            = windowConfidence a.measure w)) ∧
    ((detect_periodicity th axes).detected = true →
      ∃ a ∈ axes, ∃ w ∈ window_sizes, acceptedWindow th a.len a.measure w ∧
        (detect_periodicity th axes).best_frequency = (a.measure w).freq ∧
        (detect_periodicity th axes).best_confidence
          = windowConfidence a.measure w ∧
        ∀ a2 ∈ axes, ∀ w2 ∈ window_sizes,
          acceptedWindow th a2.len a2.measure w2 →
          windowConfidence a2.measure w2
            ≤ (detect_periodicity th axes).best_confidence) := by
  have haxis := fun (a : AxisInput) =>
    analyze_axis_spec th a.len a.measure hp he
  have hmem : ∀ r : AxisResult,
      r ∈ ((axes.map (fun a => analyze_axis th a.len a.measure)).filter
        (fun r => r.detected)) ↔
      ((∃ a ∈ axes, analyze_axis th a.len a.measure = r) ∧
        r.detected = true) := by
    intro r
    rw [List.mem_filter, List.mem_map]
  have hdet_mem : ∀ a ∈ axes,
      (∃ w ∈ window_sizes, acceptedWindow th a.len a.measure w) →
      analyze_axis th a.len a.measure ∈
        ((axes.map (fun a => analyze_axis th a.len a.measure)).filter
          (fun r => r.detected)) := by
    intro a ha hw
    rw [hmem]
    exact ⟨⟨a, ha, rfl⟩, (haxis a).1.mpr hw⟩
  cases hpb : pickBest ((axes.map
      (fun a => analyze_axis th a.len a.measure)).filter
        (fun r => r.detected)) with
  | none =>
    have hdets : ((axes.map (fun a => analyze_axis th a.len a.measure)).filter
        (fun r => r.detected)) = [] := by
      by_contra hne
      obtain ⟨c, hc, _, _⟩ := pickBest_spec _ hne
      rw [hpb] at hc
      exact absurd hc (by simp)
    have heq : detect_periodicity th axes = ⟨false, 0, 0⟩ := by
      rw [detect_periodicity, hpb]
    rw [heq]
    refine ⟨?_, fun a ha => ⟨(haxis a).1, (haxis a).2.1, (haxis a).2.2.1⟩, ?_⟩
    · constructor
      · intro h
        exact absurd h (by simp)
      · rintro ⟨a, ha, hw⟩
        have := hdet_mem a ha hw
        rw [hdets] at this
        exact absurd this (List.not_mem_nil _)
    · intro h
      exact absurd h (by simp)
  | some b =>
    have hne : ((axes.map (fun a => analyze_axis th a.len a.measure)).filter
        (fun r => r.detected)) ≠ [] := by
      intro hnil
      rw [pickBest, hnil] at hpb
      exact absurd hpb (by simp [pickBest])
    obtain ⟨c, hc, hcmem, hcdom⟩ := pickBest_spec _ hne
    rw [hpb] at hc
    have hbc : b = c := Option.some.inj hc
    rw [hbc] at hpb
    have heq : detect_periodicity th axes = ⟨true, c.frequency, c.confidence⟩ := by
      rw [detect_periodicity, hpb]
    obtain ⟨⟨a, ha, hga⟩, hcdet⟩ := (hmem c).mp hcmem
    rw [heq]
    refine ⟨?_, fun a ha => ⟨(haxis a).1, (haxis a).2.1, (haxis a).2.2.1⟩, ?_⟩
    · simp only [show (OverallResult.mk true c.frequency
        c.confidence).detected = true from rfl, true_iff]
      have hcdet' : (analyze_axis th a.len a.measure).detected = true := by
        rw [hga]
        exact hcdet
      obtain ⟨w, hw, hacc⟩ := (haxis a).1.mp hcdet'
      exact ⟨a, ha, w, hw, hacc⟩
    · intro _
      have hcdet' : (analyze_axis th a.len a.measure).detected = true := by
        rw [hga]
        exact hcdet
      obtain ⟨w, hw, hacc, hf, hconf⟩ := (haxis a).2.2.1 hcdet'
      refine ⟨a, ha, w, hw, hacc, ?_, ?_, ?_⟩
      · show c.frequency = (a.measure w).freq
        rw [← hga]
        exact hf
      · show c.confidence = windowConfidence a.measure w
        rw [← hga]
        exact hconf
      · intro a2 ha2 w2 hw2 hacc2
        show windowConfidence a2.measure w2 ≤ c.confidence
        have h1 : windowConfidence a2.measure w2
            ≤ (analyze_axis th a2.len a2.measure).confidence :=
          (haxis a2).2.1 w2 hw2 hacc2
        have h2 : analyze_axis th a2.len a2.measure ∈
            ((axes.map (fun a => analyze_axis th a.len a.measure)).filter
              (fun r => r.detected)) :=
          hdet_mem a2 ha2 ⟨w2, hw2, hacc2⟩
        exact le_trans h1 (hcdom _ h2)

/-- A concrete axis measurement that is accepted at every window size. -/
def strongTone : ℕ → Meas := fun _ => ⟨2, 4 / 5, 1 / 10⟩

/-- A concrete axis measurement rejected at every window size. -/
def flatNoise : ℕ → Meas := fun _ => ⟨0, 0, 1⟩

/-- Six concrete axis buffers (gyro x,y,z then accel x,y,z), the first
carrying a strong periodic signal. -/
def sixAxes : List AxisInput :=
  [⟨1024, strongTone⟩, ⟨1024, flatNoise⟩, ⟨1024, flatNoise⟩,
   ⟨1024, flatNoise⟩, ⟨1024, flatNoise⟩, ⟨1024, flatNoise⟩]

/-- Witness for the C4 theorem at the default thresholds on six concrete
axis buffers. -/
theorem frequency_analysis_spec_witness :
    (detect_periodicity ⟨7 / 10, 3 / 10⟩ sixAxes).detected = true :=
  (frequency_analysis_spec ⟨7 / 10, 3 / 10⟩ sixAxes (by norm_num)
    (by norm_num)).1.mpr
    ⟨⟨1024, strongTone⟩, by simp [sixAxes], 64, by simp [window_sizes],
      by norm_num [acceptedWindow, strongTone]⟩

/-- Three-component vector of real numbers, for the orientation math
whose Python counterpart uses `sqrt`. -/
structure V3R where
  x : ℝ
  y : ℝ
  z : ℝ

/-- A 3x3 real matrix given by its nine entries, modelling the
`np.array` built by `quaternion_to_rotation_matrix`. -/
structure M3 where
  a11 : ℝ
  a12 : ℝ
  a13 : ℝ
  a21 : ℝ
  a22 : ℝ
  a23 : ℝ
  a31 : ℝ
  a32 : ℝ
  a33 : ℝ

/-- Matrix-vector product `R @ v`. -/
def M3.apply (m : M3) (v : V3R) : V3R :=
  ⟨m.a11 * v.x + m.a12 * v.y + m.a13 * v.z,
   m.a21 * v.x + m.a22 * v.y + m.a23 * v.z,
   m.a31 * v.x + m.a32 * v.y + m.a33 * v.z⟩

/-- The rotation-matrix formula of `SensorMath.quaternion_to_rotation_matrix`
(SensorMath.py lines 22-26), applied to the (possibly normalized)
components. -/
def rotm (w x y z : ℝ) : M3 :=
  ⟨1 - 2 * (y ^ 2 + z ^ 2), 2 * (x * y - w * z), 2 * (x * z + w * y),
   2 * (x * y + w * z), 1 - 2 * (x ^ 2 + z ^ 2), 2 * (y * z - w * x),
   2 * (x * z - w * y), 2 * (y * z + w * x), 1 - 2 * (x ^ 2 + y ^ 2)⟩

/-- Model of `SensorMath.quaternion_to_rotation_matrix` (SensorMath.py
lines 9-26): the quaternion is normalized only when its norm is
positive; with zero norm the matrix is built from the unnormalized
components. -/
noncomputable def quaternion_to_rotation_matrix (w x y z : ℝ) : M3 :=
  if 0 < Real.sqrt (w * w + x * x + y * y + z * z) then
    rotm (w / Real.sqrt (w * w + x * x + y * y + z * z))
      (x / Real.sqrt (w * w + x * x + y * y + z * z))
      (y / Real.sqrt (w * w + x * x + y * y + z * z))
      (z / Real.sqrt (w * w + x * x + y * y + z * z))
  else rotm w x y z

/-- Model of `SensorMath.transform_to_global` (SensorMath.py lines
28-38): rotation matrix of the quaternion applied to the local
vector. -/
noncomputable def transform_to_global (v : V3R) (w x y z : ℝ) : V3R :=
  (quaternion_to_rotation_matrix w x y z).apply v

/-- Model of `SensorMath.transform_to_local` (SensorMath.py lines
40-52): rotation matrix of the conjugate quaternion `[w, -x, -y, -z]`
applied to the global vector. -/
noncomputable def transform_to_local (v : V3R) (w x y z : ℝ) : V3R :=
  (quaternion_to_rotation_matrix w (-x) (-y) (-z)).apply v

/-- For a unit-norm quaternion the normalization divides by 1, so the
matrix is the raw formula matrix. -/
theorem quaternion_to_rotation_matrix_unit (w x y z : ℝ)
    (h : w * w + x * x + y * y + z * z = 1) :
    quaternion_to_rotation_matrix w x y z = rotm w x y z := by
  rw [quaternion_to_rotation_matrix, h, Real.sqrt_one]
  rw [if_pos (by norm_num : (0 : ℝ) < 1)]
  simp

/-- C7: transforming a vector to the global frame with a unit-norm
quaternion and then back to the local frame with the same quaternion
returns the vector exactly (in exact real arithmetic). -/
theorem transform_roundtrip (v : V3R) (w x y z : ℝ)
    (h : w * w + x * x + y * y + z * z = 1) :
    transform_to_local (transform_to_global v w x y z) w x y z = v := by
  have hconj : w * w + (-x) * (-x) + (-y) * (-y) + (-z) * (-z) = 1 := by
    linear_combination h
  have e1 := quaternion_to_rotation_matrix_unit w x y z h
  have e2 := quaternion_to_rotation_matrix_unit w (-x) (-y) (-z) hconj
  rw [transform_to_local, transform_to_global, e1, e2]
  obtain ⟨v1, v2, v3⟩ := v
  simp only [rotm, M3.apply, V3R.mk.injEq]
  refine ⟨?_, ?_, ?_⟩
  · linear_combination (4 * (y ^ 2 + z ^ 2) * v1 - 4 * x * y * v2
      - 4 * x * z * v3) * h
  · linear_combination (-4 * x * y * v1 + 4 * (x ^ 2 + z ^ 2) * v2
      - 4 * y * z * v3) * h
  · linear_combination (-4 * x * z * v1 - 4 * y * z * v2
      + 4 * (x ^ 2 + y ^ 2) * v3) * h

/-- Witness for the C7 theorem at the identity quaternion. -/
theorem transform_roundtrip_witness :
    (1 : ℝ) * 1 + 0 * 0 + 0 * 0 + 0 * 0 = 1 ∧
    transform_to_local (transform_to_global ⟨1, 2, 3⟩ 1 0 0 0) 1 0 0 0
      = V3R.mk 1 2 3 :=
  ⟨by norm_num, transform_roundtrip ⟨1, 2, 3⟩ 1 0 0 0 (by norm_num)⟩

/-- Model of `FrequencyAnalyzer._calculate_prominence` (MotionAnalyzer.py
lines 221-226): the power within `bandwidth` of the peak frequency over
the total power, or 0 when the total power is not positive. -/
def calculate_prominence (frequencies power : List ℚ)
    (peak_freq bandwidth : ℚ) : ℚ :=
  let peak_power := ((frequencies.zip power).filter
    (fun p => |p.1 - peak_freq| ≤ bandwidth)).foldl (fun s p => s + p.2) 0
  let total_power := power.sum
  if 0 < total_power then peak_power / total_power else 0

/-- Model of `FrequencyAnalyzer._calculate_entropy` (MotionAnalyzer.py
lines 228-233): normalized Shannon entropy of the power spectrum with
the code's `1e-10` regularizers; when the maximum-entropy denominator
`log2(len(power))` is not positive the safe default 1 is returned. -/
noncomputable def calculate_entropy (power : List ℝ) : ℝ :=
  let total := power.sum + 1e-10
  let ent := -((power.map (fun p => p / total)).map
      (fun p => p * Real.logb 2 (p + 1e-10))).sum
  if 0 < Real.logb 2 (power.length : ℝ) then
    ent / Real.logb 2 (power.length : ℝ)
  else 1

/-- C8: degenerate numeric inputs take the local safe branch: a zero-norm
quaternion skips the normalization division and the matrix is built from
the unnormalized components; a spectrum with zero total power gets
prominence 0; a spectrum whose maximum-entropy denominator
`log2(number of bins)` is zero gets normalized entropy 1. -/
theorem degenerate_inputs_safe :
    (∀ w x y z : ℝ, w * w + x * x + y * y + z * z = 0 →
      quaternion_to_rotation_matrix w x y z = rotm w x y z) ∧
    (∀ (frequencies power : List ℚ) (peak_freq bandwidth : ℚ),
      power.sum = 0 →
      calculate_prominence frequencies power peak_freq bandwidth = 0) ∧
    (∀ power : List ℝ, Real.logb 2 (power.length : ℝ) = 0 →
      calculate_entropy power = 1) := by
  refine ⟨?_, ?_, ?_⟩
  · intro w x y z h
    rw [quaternion_to_rotation_matrix, h, Real.sqrt_zero]
    rw [if_neg (lt_irrefl 0)]
  · intro frequencies power peak_freq bandwidth h
    rw [calculate_prominence]
    simp only [h]
    rw [if_neg (lt_irrefl 0)]
  · intro power h
    rw [calculate_entropy]
    simp only [h]
    rw [if_neg (lt_irrefl 0)]

/-- Witness for the C8 theorem: the zero quaternion, a one-bin spectrum
of zero power, and a one-bin spectrum (whose maximum entropy
`log2 1` is zero). -/
theorem degenerate_inputs_safe_witness :
    quaternion_to_rotation_matrix 0 0 0 0 = rotm 0 0 0 0 ∧
    calculate_prominence [1] [0] 1 (1 / 10) = 0 ∧
    calculate_entropy [(1 : ℝ)] = 1 := by
  obtain ⟨h1, h2, h3⟩ := degenerate_inputs_safe
  refine ⟨h1 0 0 0 0 (by norm_num), h2 [1] [0] 1 (1 / 10) (by simp), ?_⟩
  refine h3 [(1 : ℝ)] ?_
  simp [Real.logb_one]
